import Mathlib

/-!
Verification of the Anneal rebuild-decision core: a shallow embedding of
`src/version.rs`, `src/overrides.rs`, `src/triggers.rs` and `src/trigger.rs`
(version parsing/comparison, threshold policy, glob matching, override
resolution and the trigger pipeline), together with theorems settling the
specification's claims about them.

Rust strings are modelled as `List Char` (`Str`); `u32`/`u64` parsing keeps
the overflow bounds explicit (`< 2^32`, `< 2^64`).
-/

namespace Anneal

/-- Rust `&str` / `String` values, modelled as lists of characters. -/
abbrev Str := List Char

/-! ## Generic string helpers (model Rust `str` methods) -/

/-- Model of Rust `s.find(c)` + slicing: split at the first occurrence of `c`,
returning the parts before and after it (the occurrence itself removed). -/
def splitFirst (c : Char) : Str → Option (Str × Str)
  | [] => none
  | x :: xs =>
    if x = c then some ([], xs)
    else
      match splitFirst c xs with
      | some (pre, post) => some (x :: pre, post)
      | none => none

/-- Model of Rust `s.rfind(c)` + slicing: split at the last occurrence of `c`. -/
def splitLast (c : Char) (l : Str) : Option (Str × Str) :=
  match splitFirst c l.reverse with
  | some (a, b) => some (b.reverse, a.reverse)
  | none => none

/-- Model of Rust `char::is_whitespace` (on the ASCII range used here). -/
def isWhite (c : Char) : Bool := c.isWhitespace

/-- Model of Rust `str::trim`. -/
def trim (l : Str) : Str :=
  ((l.dropWhile isWhite).reverse.dropWhile isWhite).reverse

/-- Split a list at every occurrence of characters satisfying `d`,
keeping empty pieces, as Rust `str::split` does. -/
def splitBy (d : Char → Bool) : Str → List Str
  | [] => [[]]
  | x :: xs =>
    let r := splitBy d xs
    if d x then [] :: r
    else
      match r with
      | h :: t => (x :: h) :: t
      | [] => [[x]]

/-- Model of Rust `str::lines`: split on `'\n'`, drop a final empty piece,
strip one trailing `'\r'` from each line. -/
def strLines (s : Str) : List Str :=
  let parts := splitBy (fun c => c = '\n') s
  let parts :=
    match parts.getLast? with
    | some [] => parts.dropLast
    | _ => parts
  parts.map fun l =>
    match l.getLast? with
    | some '\r' => l.dropLast
    | _ => l

/-- Number of occurrences of a character in a string (used to state claims
about inputs with a given number of separators). -/
def countChar (c : Char) (l : Str) : Nat :=
  (l.filter fun x => x = c).length

/-- Numeric value of a digit run (the value Rust `str::parse` computes). -/
def digitsToNat (s : Str) : Nat :=
  s.foldl (fun a c => a * 10 + (c.toNat - 48)) 0

/-- Model of Rust `"…".parse::<u32>()`: optional leading `'+'`, then a
non-empty all-digit run whose value fits in 32 bits. -/
def parseU32 (s : Str) : Option Nat :=
  let t := match s with
    | '+' :: rest => rest
    | _ => s
  if t ≠ [] ∧ t.all Char.isDigit ∧ digitsToNat t < 2 ^ 32 then
    some (digitsToNat t)
  else none

/-- Comparison of natural numbers by value, as Rust `Ord` on unsigned ints. -/
def natCmp (a b : Nat) : Ordering :=
  if a < b then .lt else if a = b then .eq else .gt

/-- Comparison of characters by code point, as Rust `Ord` on `char`. -/
def charCmp (a b : Char) : Ordering :=
  if a < b then .lt else if a = b then .eq else .gt

/-- Lexicographic comparison of strings, as Rust `Ord` on `String`. -/
def lexCmp : Str → Str → Ordering
  | [], [] => .eq
  | [], _ :: _ => .lt
  | _ :: _, [] => .gt
  | a :: l, b :: m =>
    match charCmp a b with
    | .eq => lexCmp l m
    | o => o

/-! ## `src/version.rs`: the version model -/

/-- Threshold for determining when a version change should trigger a rebuild. -/
inductive Threshold where
  | major
  | minor
  | patch
  | always
deriving DecidableEq, Repr

/-- A single segment of a version string. -/
inductive Segment where
  | num (n : Nat)
  | alpha (s : Str)
deriving DecidableEq, Repr

/-- A parsed version with optional epoch and pkgrel. -/
structure Version where
  epoch : Nat
  segments : List Segment
  pkgrel : Option Str
deriving DecidableEq, Repr

/-- `Segment::cmp_to`: numeric segments sort after alphabetic. -/
def Segment.cmpTo : Segment → Segment → Ordering
  | .num a, .num b => natCmp a b
  | .alpha a, .alpha b => lexCmp a b
  | .num _, .alpha _ => .gt
  | .alpha _, .num _ => .lt

/-- The segment-list walk of `Version::cmp_to`: compare index by index; when
one side is exhausted the first remaining segment of the other side decides. -/
def segsCmp : List Segment → List Segment → Ordering
  | [], [] => .eq
  | s :: _, [] =>
    match s with
    | .num _ => .gt
    | .alpha _ => .lt
  | [], s :: _ =>
    match s with
    | .num _ => .lt
    | .alpha _ => .gt
  | a :: l, b :: m =>
    match a.cmpTo b with
    | .eq => segsCmp l m
    | o => o

/-- `Version::cmp_to`: epoch takes precedence, then the segment walk;
`pkgrel` never participates. -/
def Version.cmpTo (a b : Version) : Ordering :=
  match natCmp a.epoch b.epoch with
  | .eq => segsCmp a.segments b.segments
  | o => o

/-- The numeric segments of a segment list, in order (used by the
`major`/`minor`/`patch` accessors, which `filter_map` and index). -/
def numerics (segs : List Segment) : List Nat :=
  segs.filterMap fun s =>
    match s with
    | .num n => some n
    | .alpha _ => none

/-- `Version::major`: the first numeric segment, if any. -/
def Version.major (v : Version) : Option Nat := (numerics v.segments)[0]?

/-- `Version::minor`: the second numeric segment, if any. -/
def Version.minor (v : Version) : Option Nat := (numerics v.segments)[1]?

/-- `Version::patch`: the third numeric segment, if any. -/
def Version.patch (v : Version) : Option Nat := (numerics v.segments)[2]?

/-- One flush of the pending digit run in `parse_segments`: an empty run
contributes nothing, and a run that fails `parse::<u64>()` (overflow) is
silently dropped. -/
def numFlush (num : Str) : List Segment :=
  if num = [] then []
  else if digitsToNat num < 2 ^ 64 then [.num (digitsToNat num)]
  else []

/-- One flush of the pending alphabetic run in `parse_segments`. -/
def alphaFlush (a : Str) : List Segment :=
  if a = [] then [] else [.alpha a]

/-- The character walk of `parse_segments` over one delimiter-free part,
carrying the pending digit run and pending alphabetic run. -/
def segPart : Str → Str → Str → List Segment
  | [], num, alpha => numFlush num ++ alphaFlush alpha
  | c :: rest, num, alpha =>
    if c.isDigit then alphaFlush alpha ++ segPart rest (num ++ [c]) []
    else numFlush num ++ segPart rest [] (alpha ++ [c])

/-- Characters `parse_segments` splits on: `'.'`, `'_'`, `'-'`. -/
def isDelim (c : Char) : Bool := c = '.' || c = '_' || c = '-'

/-- `Version::parse_segments`: split on delimiters, then walk each part. -/
def parseSegments (input : Str) : List Segment :=
  (splitBy isDelim input).flatMap fun part => segPart part [] []

/-- `Version::parse`: extract epoch (`"N:"` prefix, `u32`), then a trailing
pkgrel (all digits/dots after the last `'-'`), then the segments; fails on
empty input, an unparsable epoch, or an empty segment list. -/
def Version.parse (input : Str) : Option Version :=
  if input = [] then none
  else
    let step :=
      match splitFirst ':' input with
      | some (pre, post) => (parseU32 pre, post)
      | none => (some 0, input)
    match step with
    | (none, _) => none
    | (some epoch, rem) =>
      let step2 :=
        match splitLast '-' rem with
        | some (pre, post) =>
          if post ≠ [] ∧ post.all (fun c => c.isDigit || c = '.') then
            (some post, pre)
          else (none, rem)
        | none => (none, rem)
      match step2 with
      | (pkgrel, body) =>
        let segs := parseSegments body
        if segs = [] then none
        else some ⟨epoch, segs, pkgrel⟩

/-- `Version::parse` applied to a Lean string literal. -/
def Version.parseStr (s : String) : Option Version := Version.parse s.data

/-- `exceeds_threshold`: whether a version change clears a threshold. -/
def exceedsThreshold (old new : Version) (threshold : Threshold) : Bool :=
  match threshold with
  | .always => decide (old ≠ new) || decide (old.pkgrel ≠ new.pkgrel)
  | .major =>
    if old.epoch ≠ new.epoch then true
    else
      match old.major, new.major with
      | some oldMaj, some newMaj => decide (oldMaj ≠ newMaj)
      | _, _ => decide (old.cmpTo new ≠ .eq)
  | .minor =>
    if old.epoch ≠ new.epoch then true
    else
      let minorStep : Bool :=
        match old.minor, new.minor with
        | some oldMin, some newMin => decide (oldMin ≠ newMin)
        | none, some _ => true
        | some _, none => true
        | none, none => decide (old.major ≠ new.major)
      match old.major, new.major with
      | some oldMaj, some newMaj =>
        if oldMaj ≠ newMaj then true else minorStep
      | _, _ => minorStep
  | .patch =>
    decide (old.epoch ≠ new.epoch) || decide (old.cmpTo new ≠ .eq)

/-! ## `src/overrides.rs`: glob matching and the override store -/

/-- `matches_glob_recursive`: backtracking wildcard match; `'*'` tries
skipping itself or consuming one text character, `'?'` consumes exactly one,
other characters match literally. -/
def matchesGlobRec : Str → Str → Bool
  | [], [] => true
  | [], _ :: _ => false
  | p :: ps, text =>
    if p = '*' then
      matchesGlobRec ps text ||
        (match text with
         | [] => false
         | _ :: ts => matchesGlobRec (p :: ps) ts)
    else
      match text with
      | [] => false
      | t :: ts =>
        if p = '?' then matchesGlobRec ps ts
        else if p = t then matchesGlobRec ps ts
        else false
termination_by pat text => (pat.length, text.length)

/-- `matches_glob`: collect both strings to characters and recurse. -/
def matchesGlob (pattern text : Str) : Bool :=
  matchesGlobRec pattern text

/-- Modelled from the spec: the language a glob pattern denotes — `*` matches
zero or more of any character, `?` matches exactly one character, every other
pattern character matches itself literally. -/
def globLang : Str → Str → Prop
  | [], text => text = []
  | p :: ps, text =>
    if p = '*' then ∃ u v, text = u ++ v ∧ globLang ps v
    else if p = '?' then ∃ c v, text = c :: v ∧ globLang ps v
    else ∃ v, text = p :: v ∧ globLang ps v

/-- Override for a trigger. -/
inductive TriggerOverride where
  | disabled
  | patterns (ps : List Str)
deriving DecidableEq, Repr

/-- Override for a package. -/
inductive PackageOverride where
  | neverMark
  | onlyTriggers (ts : List Str)
deriving DecidableEq, Repr

/-- `parse_override_file` applied to file content: keep trimmed lines that
are non-empty and do not start with `'#'`. -/
def parseOverrideFile (content : Str) : List Str :=
  ((strLines content).map trim).filter fun line =>
    decide (line ≠ []) && decide (line.head? ≠ some '#')

/-- `TriggerOverride::load` on file content: no surviving pattern means the
trigger is disabled. -/
def TriggerOverride.load (content : Str) : TriggerOverride :=
  let ps := parseOverrideFile content
  if ps = [] then .disabled else .patterns ps

/-- `PackageOverride::load` on file content: no surviving pattern means the
package is never marked. -/
def PackageOverride.load (content : Str) : PackageOverride :=
  let ts := parseOverrideFile content
  if ts = [] then .neverMark else .onlyTriggers ts

/-- Loaded user overrides; the two `HashMap`s are modelled as association
lists keyed by name. -/
structure Overrides where
  triggers : List (Str × TriggerOverride)
  packages : List (Str × PackageOverride)

/-- `Overrides::default()`: both catalogs empty. -/
def Overrides.default : Overrides := ⟨[], []⟩

/-- Model of Rust `str::ends_with("-bin")`. -/
def endsWithBin (s : Str) : Bool := List.isSuffixOf "-bin".data s

/-- `Overrides::is_user_trigger`. -/
def Overrides.isUserTrigger (o : Overrides) (name : Str) : Bool :=
  (o.triggers.lookup name).isSome

/-- `Overrides::get_trigger_targets`: `none` when no override exists,
`some []` when disabled, otherwise the members of the AUR universe matching
at least one pattern and not ending in `"-bin"`. -/
def Overrides.getTriggerTargets (o : Overrides) (trigger : Str)
    (aurPackages : List Str) : Option (List Str) :=
  match o.triggers.lookup trigger with
  | none => none
  | some .disabled => some []
  | some (.patterns ps) =>
    some (aurPackages.filter fun pkg =>
      ps.any (fun pattern => matchesGlob pattern pkg) && !endsWithBin pkg)

/-- `Overrides::should_mark_package`: default-allow without an override,
never for `NeverMark`, otherwise any listed pattern must match the trigger. -/
def Overrides.shouldMarkPackage (o : Overrides) (package trigger : Str) : Bool :=
  match o.packages.lookup package with
  | none => true
  | some .neverMark => false
  | some (.onlyTriggers allowed) =>
    allowed.any fun pattern => matchesGlob pattern trigger

/-! ## `src/triggers.rs`: the curated trigger registry -/

/-- The curated trigger list `TRIGGERS` with per-trigger thresholds. -/
def TRIGGERS : List (Str × Threshold) :=
  [("glibc".data, .major), ("gcc-libs".data, .major),
   ("glib2".data, .minor), ("qt5-base".data, .minor), ("qt6-base".data, .minor),
   ("gtk2".data, .minor), ("gtk3".data, .minor), ("gtk4".data, .minor),
   ("wxwidgets".data, .minor), ("electron".data, .major),
   ("freetype2".data, .minor), ("mesa".data, .minor),
   ("vulkan-icd-loader".data, .minor),
   ("ffmpeg".data, .minor), ("pipewire".data, .minor),
   ("llvm-libs".data, .major),
   ("protobuf".data, .patch), ("abseil-cpp".data, .always), ("grpc".data, .minor),
   ("openssl".data, .minor), ("gnutls".data, .minor), ("icu".data, .minor),
   ("curl".data, .minor), ("boost".data, .minor), ("opencv".data, .minor),
   ("vtk".data, .minor),
   ("postgresql-libs".data, .major),
   ("libffi".data, .minor), ("python".data, .minor), ("nodejs".data, .major),
   ("ruby".data, .minor), ("lua".data, .minor)]

/-- `is_curated_trigger`. -/
def isCuratedTrigger (package : Str) : Bool :=
  TRIGGERS.any fun e => e.1 == package

/-- `get_curated_threshold`. -/
def getCuratedThreshold (package : Str) : Option Threshold :=
  (TRIGGERS.find? fun e => e.1 == package).map fun e => e.2

/-! ## `src/trigger.rs`: the trigger pipeline -/

/-- Parsed trigger input with optional version info. -/
structure TriggerInput where
  name : Str
  oldVersion : Option Str
  newVersion : Option Str
deriving DecidableEq, Repr

/-- `TriggerInput::parse`: `splitn(3, ':')` yields exactly three parts for
`name:old:new`; any other shape keeps the whole input as the name. -/
def TriggerInput.parse (input : Str) : TriggerInput :=
  match splitFirst ':' input with
  | none => ⟨input, none, none⟩
  | some (name, rest) =>
    match splitFirst ':' rest with
    | none => ⟨input, none, none⟩
    | some (old, new) => ⟨name, some old, some new⟩

/-- `TriggerInput::exceeds_threshold`: fire unconditionally when version info
is absent or unparsable, otherwise defer to `exceeds_threshold`. -/
def TriggerInput.exceedsThreshold (ti : TriggerInput) (threshold : Threshold) :
    Bool :=
  match ti.oldVersion, ti.newVersion with
  | some old, some new =>
    match Version.parse old, Version.parse new with
    | some oldVer, some newVer => Anneal.exceedsThreshold oldVer newVer threshold
    | _, _ => true
  | _, _ => true

/-- A package that was marked by a trigger. -/
structure MarkedPackage where
  package : Str
  trigger : Str
deriving DecidableEq, Repr

/-- Result of processing triggers. -/
structure TriggerResult where
  marked : List MarkedPackage
  skipped : List Str
  belowThreshold : List Str
deriving DecidableEq, Repr

/-- Errors that can occur during trigger processing; the `std::io::Error`
payloads are modelled as strings. -/
inductive TriggerError where
  | pactree (e : Str)
  | pacman (e : Str)
  | pactreeExitCode (code : Int)
  | pacmanExitCode (code : Int)
deriving DecidableEq, Repr

/-- The observable outcome of one spawned process: its exit status
(`success`, the optional exit `code`) and captured stdout bytes. -/
structure ProcessOutput where
  success : Bool
  code : Option Int
  stdout : Str
deriving DecidableEq, Repr

/-- The result of attempting to spawn a process: an I/O error or its output. -/
abbrev SpawnResult := Except Str ProcessOutput

/-- `get_reverse_deps`: a spawn failure is fatal; any non-success exit yields
an empty list; otherwise the trimmed, non-empty stdout lines other than the
package itself. -/
def getReverseDeps (package : Str) (spawn : SpawnResult) :
    Except TriggerError (List Str) :=
  match spawn with
  | .error e => .error (.pactree e)
  | .ok out =>
    if !out.success then .ok []
    else
      .ok (((strLines out.stdout).map trim).filter fun line =>
        decide (line ≠ []) && decide (line ≠ package))

/-- `get_aur_packages`: a spawn failure is fatal; exit code 1 with empty
stdout means no foreign packages; any other non-success exit is fatal. -/
def getAurPackages (spawn : SpawnResult) : Except TriggerError (List Str) :=
  match spawn with
  | .error e => .error (.pacman e)
  | .ok out =>
    if !out.success then
      let code := out.code.getD (-1)
      if code = 1 ∧ out.stdout = [] then .ok []
      else .error (.pacmanExitCode code)
    else
      .ok (((strLines out.stdout).map trim).filter fun line => decide (line ≠ []))

/-- `is_trigger`: in the curated list or having a user override. -/
def isTrigger (package : Str) (o : Overrides) : Bool :=
  isCuratedTrigger package || o.isUserTrigger package

/-- `get_aur_dependents`: an override supplies the targets directly (then
only package overrides are applied); otherwise `pactree` output is filtered
to AUR packages, non-`-bin` names, and allowed packages. -/
def getAurDependents (package : Str) (aurPackages : List Str) (o : Overrides)
    (pactreeSpawn : Str → SpawnResult) : Except TriggerError (List Str) :=
  match o.getTriggerTargets package aurPackages with
  | some targets =>
    .ok (targets.filter fun dep => o.shouldMarkPackage dep package)
  | none =>
    match getReverseDeps package (pactreeSpawn package) with
    | .error e => .error e
    | .ok reverseDeps =>
      .ok (reverseDeps.filter fun dep =>
        aurPackages.contains dep && !endsWithBin dep &&
          o.shouldMarkPackage dep package)

/-- The `retain`/`HashSet::insert` walk of `deduplicate_marked`, carrying the
set of already-seen package names. -/
def dedupGo (seen : List Str) : List MarkedPackage → List MarkedPackage
  | [] => []
  | m :: rest =>
    if m.package ∈ seen then dedupGo seen rest
    else m :: dedupGo (m.package :: seen) rest

/-- `deduplicate_marked`: keep the first occurrence of each package name. -/
def deduplicateMarked (marked : List MarkedPackage) : List MarkedPackage :=
  dedupGo [] marked

/-- The per-input loop body of `process_triggers`, accumulating into the
result and aborting on the first collaborator error. -/
def processLoop (defaultThreshold : Threshold) (o : Overrides)
    (pactreeSpawn : Str → SpawnResult) (aurPackages : List Str) :
    List Str → TriggerResult → Except TriggerError TriggerResult
  | [], acc => .ok acc
  | pkgInput :: rest, acc =>
    let input := TriggerInput.parse pkgInput
    if !isTrigger input.name o then
      processLoop defaultThreshold o pactreeSpawn aurPackages rest
        { acc with skipped := acc.skipped ++ [input.name] }
    else
      let threshold := (getCuratedThreshold input.name).getD defaultThreshold
      if !input.exceedsThreshold threshold then
        processLoop defaultThreshold o pactreeSpawn aurPackages rest
          { acc with belowThreshold := acc.belowThreshold ++ [input.name] }
      else
        match getAurDependents input.name aurPackages o pactreeSpawn with
        | .error e => .error e
        | .ok dependents =>
          processLoop defaultThreshold o pactreeSpawn aurPackages rest
            { acc with
                marked := acc.marked ++
                  dependents.map fun dep => ⟨dep, input.name⟩ }

/-- `process_triggers`: fetch the AUR universe once, process each input in
order, and deduplicate the accumulated marks. -/
def processTriggers (packages : List Str) (defaultThreshold : Threshold)
    (o : Overrides) (pactreeSpawn : Str → SpawnResult)
    (pacmanSpawn : SpawnResult) : Except TriggerError TriggerResult :=
  match getAurPackages pacmanSpawn with
  | .error e => .error e
  | .ok aurPackages =>
    match processLoop defaultThreshold o pactreeSpawn aurPackages packages
        ⟨[], [], []⟩ with
    | .error e => .error e
    | .ok result => .ok { result with marked := deduplicateMarked result.marked }

/-! ## Ordering lemmas for the version model -/

theorem natCmp_eq_iff {a b : Nat} : natCmp a b = .eq ↔ a = b := by
  unfold natCmp
  split
  · rename_i h
    exact ⟨fun hc => Ordering.noConfusion hc, fun he => absurd he (by omega)⟩
  · split
    · rename_i he
      exact ⟨fun _ => he, fun _ => rfl⟩
    · exact ⟨fun hc => Ordering.noConfusion hc, fun he => absurd he (by assumption)⟩

theorem charCmp_eq_iff {a b : Char} : charCmp a b = .eq ↔ a = b := by
  unfold charCmp
  split
  · rename_i h
    refine ⟨fun hc => Ordering.noConfusion hc, fun he => ?_⟩
    subst he
    exact absurd h (by simp [Char.lt_def])
  · split
    · rename_i he
      exact ⟨fun _ => he, fun _ => rfl⟩
    · exact ⟨fun hc => Ordering.noConfusion hc, fun he => absurd he (by assumption)⟩

theorem lexCmp_eq_iff : ∀ {l m : Str}, lexCmp l m = .eq ↔ l = m
  | [], [] => by simp [lexCmp]
  | [], _ :: _ => by simp [lexCmp]
  | _ :: _, [] => by simp [lexCmp]
  | a :: l, b :: m => by
    simp only [lexCmp]
    cases hc : charCmp a b with
    | eq =>
      have hab : a = b := charCmp_eq_iff.mp hc
      subst hab
      simp [lexCmp_eq_iff]
    | lt =>
      simp only []
      refine ⟨fun hc2 => Ordering.noConfusion hc2, fun he => ?_⟩
      obtain ⟨rfl, rfl⟩ : a = b ∧ l = m := by
        simpa using he
      rw [charCmp_eq_iff.mpr rfl] at hc
      exact Ordering.noConfusion hc
    | gt =>
      simp only []
      refine ⟨fun hc2 => Ordering.noConfusion hc2, fun he => ?_⟩
      obtain ⟨rfl, rfl⟩ : a = b ∧ l = m := by
        simpa using he
      rw [charCmp_eq_iff.mpr rfl] at hc
      exact Ordering.noConfusion hc

theorem segCmpTo_eq_iff : ∀ {s t : Segment}, s.cmpTo t = .eq ↔ s = t
  | .num a, .num b => by
    simp only [Segment.cmpTo]
    rw [natCmp_eq_iff]
    simp
  | .alpha a, .alpha b => by
    simp only [Segment.cmpTo]
    rw [lexCmp_eq_iff]
    simp
  | .num _, .alpha _ => by
    simp only [Segment.cmpTo]
    exact ⟨fun hc => Ordering.noConfusion hc, fun he => Segment.noConfusion he⟩
  | .alpha _, .num _ => by
    simp only [Segment.cmpTo]
    exact ⟨fun hc => Ordering.noConfusion hc, fun he => Segment.noConfusion he⟩

theorem segCmpTo_self (s : Segment) : s.cmpTo s = .eq :=
  segCmpTo_eq_iff.mpr rfl

theorem segsCmp_eq_iff : ∀ {l m : List Segment}, segsCmp l m = .eq ↔ l = m
  | [], [] => by simp [segsCmp]
  | s :: _, [] => by
    simp only [segsCmp]
    cases s <;>
      exact ⟨fun hc => Ordering.noConfusion hc, fun he => List.noConfusion he⟩
  | [], s :: _ => by
    simp only [segsCmp]
    cases s <;>
      exact ⟨fun hc => Ordering.noConfusion hc, fun he => List.noConfusion he⟩
  | a :: l, b :: m => by
    simp only [segsCmp]
    cases hc : a.cmpTo b with
    | eq =>
      have hab : a = b := segCmpTo_eq_iff.mp hc
      subst hab
      simp [segsCmp_eq_iff]
    | lt =>
      simp only []
      refine ⟨fun hc2 => Ordering.noConfusion hc2, fun he => ?_⟩
      obtain ⟨rfl, rfl⟩ : a = b ∧ l = m := by
        simpa using he
      rw [segCmpTo_self] at hc
      exact Ordering.noConfusion hc
    | gt =>
      simp only []
      refine ⟨fun hc2 => Ordering.noConfusion hc2, fun he => ?_⟩
      obtain ⟨rfl, rfl⟩ : a = b ∧ l = m := by
        simpa using he
      rw [segCmpTo_self] at hc
      exact Ordering.noConfusion hc

theorem segsCmp_self (l : List Segment) : segsCmp l l = .eq :=
  segsCmp_eq_iff.mpr rfl

theorem Version.cmpTo_eq_iff {a b : Version} :
    a.cmpTo b = .eq ↔ a.epoch = b.epoch ∧ a.segments = b.segments := by
  unfold Version.cmpTo
  cases hc : natCmp a.epoch b.epoch with
  | eq =>
    have he : a.epoch = b.epoch := natCmp_eq_iff.mp hc
    simp [he, segsCmp_eq_iff]
  | lt =>
    simp only []
    refine ⟨fun hc2 => Ordering.noConfusion hc2, fun he => ?_⟩
    rw [natCmp_eq_iff.mpr he.1] at hc
    exact Ordering.noConfusion hc
  | gt =>
    simp only []
    refine ⟨fun hc2 => Ordering.noConfusion hc2, fun he => ?_⟩
    rw [natCmp_eq_iff.mpr he.1] at hc
    exact Ordering.noConfusion hc

theorem Version.cmpTo_self (a : Version) : a.cmpTo a = .eq :=
  Version.cmpTo_eq_iff.mpr ⟨rfl, rfl⟩

/-! ## Threshold policy lemmas -/

theorem Version.minor_none_of_major_none {v : Version} (h : v.major = none) :
    v.minor = none := by
  unfold Version.major at h
  unfold Version.minor
  have hlen : (numerics v.segments).length ≤ 0 := List.getElem?_eq_none_iff.mp h
  exact List.getElem?_eq_none_iff.mpr (by omega)

theorem exceeds_minor_eq_false {a b : Version} (he : a.epoch = b.epoch)
    (hs : a.segments = b.segments) : exceedsThreshold a b .minor = false := by
  have hmaj : a.major = b.major := by
    unfold Version.major
    rw [hs]
  have hmin : a.minor = b.minor := by
    unfold Version.minor
    rw [hs]
  simp only [exceedsThreshold, he, hmaj, hmin]
  cases hM : b.major <;> cases hm : b.minor <;> simp [hM, hm]

theorem exceeds_major_eq_false {a b : Version} (he : a.epoch = b.epoch)
    (hs : a.segments = b.segments) : exceedsThreshold a b .major = false := by
  have hmaj : a.major = b.major := by
    unfold Version.major
    rw [hs]
  have hcmp : a.cmpTo b = .eq := Version.cmpTo_eq_iff.mpr ⟨he, hs⟩
  simp only [exceedsThreshold, he, hmaj]
  cases hM : b.major <;> simp [hM, hcmp]

theorem exceeds_patch_eq_false {a b : Version} (he : a.epoch = b.epoch)
    (hs : a.segments = b.segments) : exceedsThreshold a b .patch = false := by
  have hcmp : a.cmpTo b = .eq := Version.cmpTo_eq_iff.mpr ⟨he, hs⟩
  simp [exceedsThreshold, he, hcmp]

/-! ## Claim C1: the threshold containment chain -/

/-- C1 counterexample: the versions `"alpha"` and `"beta"` both parse, clear
the `Major` threshold (via the conservative fallback, since neither has a
numeric segment), yet do not clear the `Minor` threshold — so
`exceeds(a,b,Major)` does not imply `exceeds(a,b,Minor)`. -/
theorem c1_chain_counterexample :
    Version.parseStr "alpha" = some ⟨0, [.alpha "alpha".data], none⟩ ∧
    Version.parseStr "beta" = some ⟨0, [.alpha "beta".data], none⟩ ∧
    exceedsThreshold ⟨0, [.alpha "alpha".data], none⟩
      ⟨0, [.alpha "beta".data], none⟩ .major = true ∧
    exceedsThreshold ⟨0, [.alpha "alpha".data], none⟩
      ⟨0, [.alpha "beta".data], none⟩ .minor = false := by
  refine ⟨by decide, by decide, by decide, by decide⟩

/-- C1 amended: the containment chain `Minor ⇒ Patch ⇒ Always` holds for all
version pairs, and `Major ⇒ Minor` holds whenever at least one of the two
versions has a major (first numeric) segment; it can fail only when both
versions are purely alphabetic. -/
theorem c1_threshold_chain (a b : Version) :
    (exceedsThreshold a b .minor = true → exceedsThreshold a b .patch = true) ∧
    (exceedsThreshold a b .patch = true → exceedsThreshold a b .always = true) ∧
    ((a.major.isSome ∨ b.major.isSome) →
      exceedsThreshold a b .major = true → exceedsThreshold a b .minor = true) := by
  refine ⟨?_, ?_, ?_⟩
  · intro hmin
    cases hp : exceedsThreshold a b .patch with
    | true => rfl
    | false =>
      exfalso
      simp only [exceedsThreshold] at hp
      simp only [Bool.or_eq_false_iff, decide_eq_false_iff_not, not_not] at hp
      obtain ⟨he, hcmp⟩ := hp
      obtain ⟨-, hs⟩ := Version.cmpTo_eq_iff.mp hcmp
      rw [exceeds_minor_eq_false he hs] at hmin
      exact Bool.noConfusion hmin
  · intro hpatch
    cases hal : exceedsThreshold a b .always with
    | true => rfl
    | false =>
      exfalso
      simp only [exceedsThreshold] at hal
      simp only [Bool.or_eq_false_iff, decide_eq_false_iff_not, not_not] at hal
      obtain ⟨hab, -⟩ := hal
      subst hab
      rw [exceeds_patch_eq_false rfl rfl] at hpatch
      exact Bool.noConfusion hpatch
  · intro hsome hmaj
    by_cases he : a.epoch = b.epoch
    · simp only [exceedsThreshold, he, ne_eq, not_true_eq_false, if_false] at hmaj ⊢
      cases hA : a.major with
      | some x =>
        cases hB : b.major with
        | some y =>
          simp only [hA, hB] at hmaj ⊢
          simp only [decide_eq_true_eq] at hmaj
          simp [hmaj]
        | none =>
          have hBmin : b.minor = none := Version.minor_none_of_major_none hB
          cases hAmin : a.minor <;> simp [hA, hB, hAmin, hBmin]
      | none =>
        cases hB : b.major with
        | some y =>
          have hAmin : a.minor = none := Version.minor_none_of_major_none hA
          cases hBmin : b.minor <;> simp [hA, hB, hAmin, hBmin]
        | none =>
          rcases hsome with hsA | hsB
          · rw [hA] at hsA
            exact Bool.noConfusion hsA
          · rw [hB] at hsB
            exact Bool.noConfusion hsB
    · simp [exceedsThreshold, he]

/-- C1 witness: the amended chain applied at concrete versions — a minor bump
`1.0 → 1.1` clears `Patch` and `Always`, and a major bump `1 → 2` that
clears `Major` also clears `Minor`. -/
theorem c1_threshold_chain_witness :
    exceedsThreshold ⟨0, [.num 1, .num 0], none⟩ ⟨0, [.num 1, .num 1], none⟩
      .patch = true ∧
    exceedsThreshold ⟨0, [.num 1, .num 0], none⟩ ⟨0, [.num 1, .num 1], none⟩
      .always = true ∧
    exceedsThreshold ⟨0, [.num 1], none⟩ ⟨0, [.num 2], none⟩ .minor = true := by
  refine ⟨(c1_threshold_chain _ _).1 (by decide),
    (c1_threshold_chain _ _).2.1 ((c1_threshold_chain _ _).1 (by decide)),
    (c1_threshold_chain _ _).2.2 (Or.inl (by decide)) (by decide)⟩

/-! ## Claim C2: pkgrel-only differences -/

/-- C2: when the full epoch/segment comparison is `Equal` but the `pkgrel`
fields differ, the change clears `Always` and no other threshold. -/
theorem c2_pkgrel_only (a b : Version) (hcmp : a.cmpTo b = .eq)
    (hrel : a.pkgrel ≠ b.pkgrel) :
    exceedsThreshold a b .patch = false ∧
    exceedsThreshold a b .always = true ∧
    exceedsThreshold a b .major = false ∧
    exceedsThreshold a b .minor = false := by
  obtain ⟨he, hs⟩ := Version.cmpTo_eq_iff.mp hcmp
  refine ⟨exceeds_patch_eq_false he hs, ?_, exceeds_major_eq_false he hs,
    exceeds_minor_eq_false he hs⟩
  simp [exceedsThreshold, hrel]

/-- C2 witness: `1.0.0-1` vs `1.0.0-2` differ only in pkgrel, clear `Always`
and no other threshold. -/
theorem c2_pkgrel_only_witness :
    Version.parseStr "1.0.0-1" =
      some ⟨0, [.num 1, .num 0, .num 0], some ['1']⟩ ∧
    Version.parseStr "1.0.0-2" =
      some ⟨0, [.num 1, .num 0, .num 0], some ['2']⟩ ∧
    exceedsThreshold ⟨0, [.num 1, .num 0, .num 0], some ['1']⟩
      ⟨0, [.num 1, .num 0, .num 0], some ['2']⟩ .patch = false ∧
    exceedsThreshold ⟨0, [.num 1, .num 0, .num 0], some ['1']⟩
      ⟨0, [.num 1, .num 0, .num 0], some ['2']⟩ .always = true ∧
    exceedsThreshold ⟨0, [.num 1, .num 0, .num 0], some ['1']⟩
      ⟨0, [.num 1, .num 0, .num 0], some ['2']⟩ .major = false ∧
    exceedsThreshold ⟨0, [.num 1, .num 0, .num 0], some ['1']⟩
      ⟨0, [.num 1, .num 0, .num 0], some ['2']⟩ .minor = false := by
  have h := c2_pkgrel_only ⟨0, [.num 1, .num 0, .num 0], some ['1']⟩
    ⟨0, [.num 1, .num 0, .num 0], some ['2']⟩ (by decide) (by decide)
  exact ⟨by decide, by decide, h.1, h.2.1, h.2.2.1, h.2.2.2⟩

/-! ## Claim C3: comparison of prefix-related segment lists -/

theorem natCmp_self (a : Nat) : natCmp a a = .eq := natCmp_eq_iff.mpr rfl

theorem segsCmp_append : ∀ (l : List Segment) (s : Segment) (rest : List Segment),
    segsCmp l (l ++ s :: rest) =
      (match s with
       | .num _ => Ordering.lt
       | .alpha _ => Ordering.gt) ∧
    segsCmp (l ++ s :: rest) l =
      (match s with
       | .num _ => Ordering.gt
       | .alpha _ => Ordering.lt)
  | [], s, rest => by cases s <;> simp [segsCmp]
  | a :: l, s, rest => by
    simp only [List.cons_append, segsCmp, segCmpTo_self]
    exact segsCmp_append l s rest

/-- C3: with equal epochs, when one segment list is a proper prefix of the
other, the first extra segment decides — `Numeric` makes the longer version
greater, `Alpha` makes it lesser — and `pkgrel` never participates in the
comparison. -/
theorem c3_prefix_comparison (a b : Version) (s : Segment)
    (rest : List Segment) (he : a.epoch = b.epoch)
    (hs : b.segments = a.segments ++ s :: rest) :
    (∀ n, s = .num n → a.cmpTo b = .lt ∧ b.cmpTo a = .gt) ∧
    (∀ t, s = .alpha t → a.cmpTo b = .gt ∧ b.cmpTo a = .lt) ∧
    (∀ p q : Option Str,
      Version.cmpTo ⟨a.epoch, a.segments, p⟩ ⟨b.epoch, b.segments, q⟩ =
        a.cmpTo b) := by
  refine ⟨?_, ?_, fun p q => rfl⟩
  · rintro n rfl
    constructor
    · simp [Version.cmpTo, he, natCmp_self, hs, (segsCmp_append _ _ _).1]
    · simp [Version.cmpTo, he, natCmp_self, hs, (segsCmp_append _ _ _).2]
  · rintro t rfl
    constructor
    · simp [Version.cmpTo, he, natCmp_self, hs, (segsCmp_append _ _ _).1]
    · simp [Version.cmpTo, he, natCmp_self, hs, (segsCmp_append _ _ _).2]

/-- C3 witness: `"1.2.3" > "1.2"`, `"1.2" < "1.2.1"` (extra numeric makes the
longer side greater) and `"1.0.0" > "1.0.0rc1"` (extra alpha makes the longer
side lesser), via the prefix theorem at parsed inputs. -/
theorem c3_prefix_comparison_witness :
    Version.parseStr "1.2" = some ⟨0, [.num 1, .num 2], none⟩ ∧
    Version.parseStr "1.2.3" = some ⟨0, [.num 1, .num 2, .num 3], none⟩ ∧
    Version.parseStr "1.2.1" = some ⟨0, [.num 1, .num 2, .num 1], none⟩ ∧
    Version.parseStr "1.0.0" = some ⟨0, [.num 1, .num 0, .num 0], none⟩ ∧
    Version.parseStr "1.0.0rc1" =
      some ⟨0, [.num 1, .num 0, .num 0, .alpha ['r', 'c'], .num 1], none⟩ ∧
    Version.cmpTo ⟨0, [.num 1, .num 2, .num 3], none⟩
      ⟨0, [.num 1, .num 2], none⟩ = .gt ∧
    Version.cmpTo ⟨0, [.num 1, .num 2], none⟩
      ⟨0, [.num 1, .num 2, .num 1], none⟩ = .lt ∧
    Version.cmpTo ⟨0, [.num 1, .num 0, .num 0], none⟩
      ⟨0, [.num 1, .num 0, .num 0, .alpha ['r', 'c'], .num 1], none⟩ = .gt := by
  refine ⟨by decide, by decide, by decide, by decide, by decide, ?_, ?_, ?_⟩
  · exact ((c3_prefix_comparison ⟨0, [.num 1, .num 2], none⟩
      ⟨0, [.num 1, .num 2, .num 3], none⟩ (.num 3) [] rfl rfl).1 3 rfl).2
  · exact ((c3_prefix_comparison ⟨0, [.num 1, .num 2], none⟩
      ⟨0, [.num 1, .num 2, .num 1], none⟩ (.num 1) [] rfl rfl).1 1 rfl).1
  · exact ((c3_prefix_comparison ⟨0, [.num 1, .num 0, .num 0], none⟩
      ⟨0, [.num 1, .num 0, .num 0, .alpha ['r', 'c'], .num 1], none⟩
      (.alpha ['r', 'c']) [.num 1] rfl rfl).2.1 ['r', 'c'] rfl).1

/-! ## Claim C8: glob matcher correctness -/

theorem matchesGlobRec_star_nil (ps : Str) :
    matchesGlobRec ('*' :: ps) [] = matchesGlobRec ps [] := by
  simp [matchesGlobRec]

theorem matchesGlobRec_star_cons (ps : Str) (t : Char) (ts : Str) :
    matchesGlobRec ('*' :: ps) (t :: ts) =
      (matchesGlobRec ps (t :: ts) || matchesGlobRec ('*' :: ps) ts) := by
  conv_lhs => rw [matchesGlobRec]
  simp

theorem matchesGlobRec_question_nil (ps : Str) :
    matchesGlobRec ('?' :: ps) [] = false := by
  simp [matchesGlobRec]

theorem matchesGlobRec_question_cons (ps : Str) (t : Char) (ts : Str) :
    matchesGlobRec ('?' :: ps) (t :: ts) = matchesGlobRec ps ts := by
  simp [matchesGlobRec]

theorem matchesGlobRec_lit_nil (p : Char) (hp : p ≠ '*') (ps : Str) :
    matchesGlobRec (p :: ps) [] = false := by
  simp [matchesGlobRec, hp]

theorem matchesGlobRec_lit_cons (p : Char) (hp : p ≠ '*') (hq : p ≠ '?')
    (ps : Str) (t : Char) (ts : Str) :
    matchesGlobRec (p :: ps) (t :: ts) =
      if p = t then matchesGlobRec ps ts else false := by
  simp [matchesGlobRec, hp, hq]

theorem globLang_star (ps text : Str) :
    globLang ('*' :: ps) text ↔ ∃ u v, text = u ++ v ∧ globLang ps v := by
  simp [globLang]

theorem globLang_question (ps text : Str) :
    globLang ('?' :: ps) text ↔ ∃ c v, text = c :: v ∧ globLang ps v := by
  simp [globLang]

theorem globLang_lit (p : Char) (hp : p ≠ '*') (hq : p ≠ '?') (ps text : Str) :
    globLang (p :: ps) text ↔ ∃ v, text = p :: v ∧ globLang ps v := by
  simp [globLang, hp, hq]

theorem matchesGlobRec_iff_globLang (pat : Str) :
    ∀ text : Str, matchesGlobRec pat text = true ↔ globLang pat text := by
  induction pat with
  | nil =>
    intro text
    cases text <;> simp [matchesGlobRec, globLang]
  | cons p ps ih =>
    by_cases hstar : p = '*'
    · subst hstar
      intro text
      induction text with
      | nil =>
        rw [matchesGlobRec_star_nil, globLang_star, ih]
        constructor
        · intro h
          exact ⟨[], [], rfl, h⟩
        · rintro ⟨u, v, huv, hv⟩
          obtain ⟨rfl, rfl⟩ := List.append_eq_nil.mp huv.symm
          exact hv
      | cons t ts iht =>
        rw [matchesGlobRec_star_cons, globLang_star]
        rw [Bool.or_eq_true, ih, iht, globLang_star]
        constructor
        · rintro (h | ⟨u, v, huv, hv⟩)
          · exact ⟨[], t :: ts, rfl, h⟩
          · exact ⟨t :: u, v, by rw [huv]; rfl, hv⟩
        · rintro ⟨u, v, huv, hv⟩
          cases u with
          | nil =>
            refine Or.inl ?_
            simp only [List.nil_append] at huv
            rw [huv]
            exact hv
          | cons u0 u' =>
            refine Or.inr ?_
            simp only [List.cons_append, List.cons.injEq] at huv
            exact ⟨u', v, huv.2, hv⟩
    · by_cases hq : p = '?'
      · subst hq
        intro text
        cases text with
        | nil =>
          rw [matchesGlobRec_question_nil, globLang_question]
          simp
        | cons t ts =>
          rw [matchesGlobRec_question_cons, globLang_question, ih]
          constructor
          · intro h
            exact ⟨t, ts, rfl, h⟩
          · rintro ⟨c, v, hcv, hv⟩
            simp only [List.cons.injEq] at hcv
            rw [hcv.2]
            exact hv
      · intro text
        cases text with
        | nil =>
          rw [matchesGlobRec_lit_nil p hstar, globLang_lit p hstar hq]
          simp
        | cons t ts =>
          rw [matchesGlobRec_lit_cons p hstar hq, globLang_lit p hstar hq]
          by_cases hpt : p = t
          · subst hpt
            rw [if_pos rfl, ih]
            constructor
            · intro h
              exact ⟨ts, rfl, h⟩
            · rintro ⟨v, hv1, hv2⟩
              simp only [List.cons.injEq] at hv1
              rw [hv1.2]
              exact hv2
          · rw [if_neg hpt]
            constructor
            · intro h
              exact Bool.noConfusion h
            · rintro ⟨v, hv1, -⟩
              simp only [List.cons.injEq] at hv1
              exact absurd hv1.1.symm hpt

/-- C8: `matches_glob` returns `true` exactly when the text is in the
language the pattern denotes (`*` zero-or-more, `?` exactly one, everything
else literal); in particular `"*"` matches every string, `"qt?-*"` matches
`"qt6-base"` and rejects `"qt-base"`. -/
theorem c8_matches_glob_correct :
    (∀ pattern text : Str, matchesGlob pattern text = true ↔
      globLang pattern text) ∧
    (∀ s : Str, matchesGlob "*".data s = true) ∧
    matchesGlob "qt?-*".data "qt6-base".data = true ∧
    matchesGlob "qt?-*".data "qt-base".data = false := by
  have hiff : ∀ pattern text : Str,
      matchesGlob pattern text = true ↔ globLang pattern text :=
    fun pattern text => matchesGlobRec_iff_globLang pattern text
  refine ⟨hiff, ?_, ?_, ?_⟩
  · intro s
    refine (hiff _ s).mpr ?_
    refine (globLang_star [] s).mpr ⟨s, [], (List.append_nil s).symm, rfl⟩
  · simp +decide [matchesGlob, matchesGlobRec]
  · simp +decide [matchesGlob, matchesGlobRec]

/-- C8 witness: the correctness equivalence applied at the concrete pattern
`"qt?-*"` and text `"qt6-base"`. -/
theorem c8_matches_glob_correct_witness :
    globLang "qt?-*".data "qt6-base".data :=
  (c8_matches_glob_correct.1 _ _).mp c8_matches_glob_correct.2.2.1

/-! ## Claim C4: trigger target resolution -/

/-- C4: `get_trigger_targets` returns `none` without an override, `some []`
for a disabled trigger, and for `Patterns(ps)` exactly the members of the
AUR universe that match at least one pattern and do not end in `"-bin"`. -/
theorem c4_trigger_targets (o : Overrides) (trigger : Str) (aur : List Str) :
    (o.triggers.lookup trigger = none →
      o.getTriggerTargets trigger aur = none) ∧
    (o.triggers.lookup trigger = some .disabled →
      o.getTriggerTargets trigger aur = some []) ∧
    (∀ ps, o.triggers.lookup trigger = some (.patterns ps) →
      ∃ targets, o.getTriggerTargets trigger aur = some targets ∧
        ∀ pkg, pkg ∈ targets ↔
          pkg ∈ aur ∧ (∃ pattern ∈ ps, matchesGlob pattern pkg = true) ∧
            ¬ endsWithBin pkg = true) := by
  refine ⟨fun h => ?_, fun h => ?_, fun ps h => ?_⟩
  · simp [Overrides.getTriggerTargets, h]
  · simp [Overrides.getTriggerTargets, h]
  · refine ⟨aur.filter (fun pkg =>
      (ps.any fun pattern => matchesGlob pattern pkg) && !endsWithBin pkg),
      by simp [Overrides.getTriggerTargets, h], fun pkg => ?_⟩
    rw [List.mem_filter]
    simp [List.any_eq_true, and_assoc]

/-- C4 witness: the spec's example — patterns `custom-app`, `custom-*` over
the universe `{custom-app, custom-tool, custom-bin, other-pkg}` yield exactly
`{custom-app, custom-tool}` — plus the no-override and disabled cases via
the theorem. -/
theorem c4_trigger_targets_witness :
    (Overrides.mk [("custom-lib".data,
        .patterns ["custom-app".data, "custom-*".data])] []).getTriggerTargets
      "custom-lib".data
      ["custom-app".data, "custom-tool".data, "custom-bin".data,
        "other-pkg".data] = some ["custom-app".data, "custom-tool".data] ∧
    (Overrides.mk [] []).getTriggerTargets "qt6-base".data ["pkg1".data] =
      none ∧
    (Overrides.mk [("quiet".data, .disabled)] []).getTriggerTargets
      "quiet".data ["pkg1".data] = some [] := by
  refine ⟨?_, (c4_trigger_targets _ _ _).1 rfl, (c4_trigger_targets _ _ _).2.1 rfl⟩
  simp +decide [Overrides.getTriggerTargets, List.lookup, matchesGlob,
    matchesGlobRec, endsWithBin, List.isSuffixOf, List.filter]

/-! ## Claim C5: package overrides and the empty-file sentinel -/

/-- C5: an override file with no surviving patterns loads as the
block-everything sentinel `NeverMark`, under which `should_mark_package` is
`false` for every trigger; with no override it is `true`, and under
`OnlyTriggers` it is `true` iff some listed pattern matches the trigger. -/
theorem c5_package_override (content : Str) (o : Overrides)
    (package trigger : Str) :
    (parseOverrideFile content = [] →
      PackageOverride.load content = .neverMark) ∧
    (o.packages.lookup package = some .neverMark →
      o.shouldMarkPackage package trigger = false) ∧
    (o.packages.lookup package = none →
      o.shouldMarkPackage package trigger = true) ∧
    (∀ ts, o.packages.lookup package = some (.onlyTriggers ts) →
      (o.shouldMarkPackage package trigger = true ↔
        ∃ pattern ∈ ts, matchesGlob pattern trigger = true)) := by
  refine ⟨fun h => ?_, fun h => ?_, fun h => ?_, fun ts h => ?_⟩
  · simp [PackageOverride.load, h]
  · simp [Overrides.shouldMarkPackage, h]
  · simp [Overrides.shouldMarkPackage, h]
  · simp [Overrides.shouldMarkPackage, h, List.any_eq_true]

/-- C5 witness: a totally empty and a comment-only file both load as
`NeverMark`; a `never-pkg` override blocks an arbitrary trigger; a package
with no override is markable, via the theorem at concrete inputs. -/
theorem c5_package_override_witness :
    PackageOverride.load "".data = .neverMark ∧
    PackageOverride.load "# Only comments\n# Nothing else\n".data =
      .neverMark ∧
    (Overrides.mk [] [("never-pkg".data, .neverMark)]).shouldMarkPackage
      "never-pkg".data "any-trigger".data = false ∧
    (Overrides.mk [] []).shouldMarkPackage "normal-pkg".data
      "any-trigger".data = true := by
  refine ⟨(c5_package_override "".data (Overrides.mk [] []) [] []).1 (by decide),
    (c5_package_override "# Only comments\n# Nothing else\n".data
      (Overrides.mk [] []) [] []).1 (by decide),
    (c5_package_override [] _ "never-pkg".data "any-trigger".data).2.1 rfl,
    (c5_package_override [] _ "normal-pkg".data "any-trigger".data).2.2.1 rfl⟩

/-! ## Claim C6: deduplication of marked packages -/

theorem dedupGo_sublist : ∀ (seen : List Str) (l : List MarkedPackage),
    List.Sublist (dedupGo seen l) l
  | _, [] => List.Sublist.slnil
  | seen, m :: rest => by
    simp only [dedupGo]
    split
    · exact List.Sublist.cons m (dedupGo_sublist seen rest)
    · exact List.Sublist.cons₂ m (dedupGo_sublist (m.package :: seen) rest)

theorem dedupGo_not_mem_seen : ∀ (seen : List Str) (l : List MarkedPackage)
    (m : MarkedPackage), m ∈ dedupGo seen l → m.package ∉ seen
  | _, [], m, hm => absurd hm (List.not_mem_nil m)
  | seen, x :: rest, m, hm => by
    simp only [dedupGo] at hm
    by_cases hx : x.package ∈ seen
    · rw [if_pos hx] at hm
      exact dedupGo_not_mem_seen seen rest m hm
    · rw [if_neg hx] at hm
      rcases List.mem_cons.mp hm with rfl | hm'
      · exact hx
      · intro hs
        exact dedupGo_not_mem_seen _ rest m hm' (List.mem_cons_of_mem _ hs)

theorem dedupGo_map_nodup : ∀ (seen : List Str) (l : List MarkedPackage),
    ((dedupGo seen l).map (fun m => m.package)).Nodup
  | _, [] => List.nodup_nil
  | seen, x :: rest => by
    simp only [dedupGo]
    split
    · exact dedupGo_map_nodup seen rest
    · simp only [List.map_cons, List.nodup_cons]
      refine ⟨fun hmem => ?_, dedupGo_map_nodup (x.package :: seen) rest⟩
      rcases List.mem_map.mp hmem with ⟨m, hm, hpkg⟩
      refine dedupGo_not_mem_seen _ _ m hm ?_
      rw [hpkg]
      exact List.mem_cons_self _ _

theorem dedupGo_find? : ∀ (seen : List Str) (l : List MarkedPackage)
    (p : Str), p ∉ seen →
    (dedupGo seen l).find? (fun m => m.package == p) =
      l.find? (fun m => m.package == p)
  | _, [], _, _ => rfl
  | seen, x :: rest, p, hp => by
    simp only [dedupGo]
    by_cases hx : x.package ∈ seen
    · rw [if_pos hx]
      have hne : ¬(x.package == p) = true := by
        simp only [beq_iff_eq]
        intro he
        rw [← he] at hp
        exact hp hx
      rw [List.find?_cons_of_neg (p := fun m => m.package == p) rest hne]
      exact dedupGo_find? seen rest p hp
    · rw [if_neg hx]
      by_cases hxp : x.package = p
      · rw [List.find?_cons_of_pos (p := fun (m : MarkedPackage) =>
            m.package == p) _ (by simp [hxp]),
          List.find?_cons_of_pos (p := fun (m : MarkedPackage) =>
            m.package == p) rest (by simp [hxp])]
      · rw [List.find?_cons_of_neg (p := fun (m : MarkedPackage) =>
            m.package == p) _ (by simp [hxp]),
          List.find?_cons_of_neg (p := fun (m : MarkedPackage) =>
            m.package == p) rest (by simp [hxp])]
        refine dedupGo_find? _ rest p ?_
        intro hmem
        rcases List.mem_cons.mp hmem with he | hs
        · exact hxp he.symm
        · exact hp hs

/-- C6: `deduplicate_marked` keeps at most one entry per package name, each
survivor is the input's first occurrence for that name (so it carries the
earliest trigger attribution), relative order is unchanged (the result is a
sublist of the input), and the pipeline's `.ok` output is always the
deduplication of its accumulated marks. -/
theorem c6_deduplicate_marked (l : List MarkedPackage) :
    ((deduplicateMarked l).map (fun m => m.package)).Nodup ∧
    List.Sublist (deduplicateMarked l) l ∧
    (∀ p : Str, (deduplicateMarked l).find? (fun m => m.package == p) =
      l.find? (fun m => m.package == p)) ∧
    (∀ (packages : List Str) (defaultThreshold : Threshold) (o : Overrides)
      (pactreeSpawn : Str → SpawnResult) (pacmanSpawn : SpawnResult)
      (r : TriggerResult),
      processTriggers packages defaultThreshold o pactreeSpawn pacmanSpawn =
        .ok r → ∃ raw, r.marked = deduplicateMarked raw) := by
  refine ⟨dedupGo_map_nodup [] l, dedupGo_sublist [] l,
    fun p => dedupGo_find? [] l p (List.not_mem_nil p), ?_⟩
  intro packages defaultThreshold o pactreeSpawn pacmanSpawn r hr
  unfold processTriggers at hr
  split at hr
  · exact Except.noConfusion hr
  · split at hr
    · exact Except.noConfusion hr
    · rename_i res _
      refine ⟨res.marked, ?_⟩
      rw [← Except.ok.inj hr]

/-- C6 witness: marking `pkg1` from two triggers and `pkg2` from one keeps
only the first attribution of `pkg1`, in input order; the survivor for
`pkg1` is the input's first occurrence, via the theorem. -/
theorem c6_deduplicate_marked_witness :
    deduplicateMarked
      [⟨"pkg1".data, "trigger1".data⟩, ⟨"pkg1".data, "trigger2".data⟩,
        ⟨"pkg2".data, "trigger1".data⟩] =
      [⟨"pkg1".data, "trigger1".data⟩, ⟨"pkg2".data, "trigger1".data⟩] ∧
    (deduplicateMarked
      [⟨"pkg1".data, "trigger1".data⟩, ⟨"pkg1".data, "trigger2".data⟩,
        ⟨"pkg2".data, "trigger1".data⟩]).find?
      (fun m => m.package == "pkg1".data) =
      some ⟨"pkg1".data, "trigger1".data⟩ := by
  refine ⟨by decide, ?_⟩
  rw [(c6_deduplicate_marked _).2.2.1 "pkg1".data]
  decide

/-! ## Claim C7: error bucketing of the reverse-dependency lookup -/

/-- C7 counterexample: an unexpected failure exit of the reverse-dependency
lookup (exit code 2 with error output — not the "not found" exit, which is
code 1) still yields an empty dependent set instead of a fatal error, so
"any other unexpected failure … is a fatal error" is false for this lookup. -/
theorem c7_reverse_deps_counterexample :
    getReverseDeps "qt6-base".data
      (.ok ⟨false, some 2, "boom".data⟩) = .ok [] := by
  rfl

/-- C7 amended: every non-success exit of the reverse-dependency lookup
(including "not found") non-fatally yields an empty dependent set; only a
failure to launch the lookup process is a fatal error, which aborts the
batch and is propagated to the caller by `process_triggers`. -/
theorem c7_reverse_deps_error_handling :
    (∀ (pkg : Str) (out : ProcessOutput), out.success = false →
      getReverseDeps pkg (.ok out) = .ok []) ∧
    (∀ (pkg e : Str), getReverseDeps pkg (.error e) = .error (.pactree e)) ∧
    (∀ (pkg : Str) (aur : List Str) (o : Overrides) (e : Str),
      o.triggers.lookup pkg = none →
      getAurDependents pkg aur o (fun _ => .error e) =
        .error (.pactree e)) ∧
    (∀ e : Str,
      processTriggers ["qt6-base".data] .minor (Overrides.mk [] [])
        (fun _ => .error e) (.ok ⟨true, some 0, []⟩) =
        .error (.pactree e)) := by
  refine ⟨fun pkg out h => ?_, fun pkg e => rfl, fun pkg aur o e h => ?_,
    fun e => ?_⟩
  · simp [getReverseDeps, h]
  · simp [getAurDependents, Overrides.getTriggerTargets, h, getReverseDeps]
  · rfl

/-- C7 witness: the amended statement at concrete inputs — a code-2 exit is
non-fatal, while a spawn failure surfaces as `Pactree` and aborts the whole
`process_triggers` batch. -/
theorem c7_reverse_deps_error_handling_witness :
    getReverseDeps "glibc".data (.ok ⟨false, some 127, []⟩) = .ok [] ∧
    getReverseDeps "glibc".data (.error "oops".data) =
      .error (.pactree "oops".data) ∧
    processTriggers ["qt6-base".data] .minor (Overrides.mk [] [])
      (fun _ => .error "oops".data) (.ok ⟨true, some 0, []⟩) =
      .error (.pactree "oops".data) :=
  ⟨c7_reverse_deps_error_handling.1 "glibc".data ⟨false, some 127, []⟩ rfl,
    c7_reverse_deps_error_handling.2.1 "glibc".data "oops".data,
    c7_reverse_deps_error_handling.2.2.2 "oops".data⟩

/-! ## Claim C9: trigger input parsing -/

theorem splitFirst_spec : ∀ {c : Char} {l a b : Str},
    splitFirst c l = some (a, b) → l = a ++ c :: b ∧ c ∉ a := by
  intro c l
  induction l with
  | nil =>
    intro a b h
    exact Option.noConfusion h
  | cons x xs ih =>
    intro a b h
    simp only [splitFirst] at h
    by_cases hx : x = c
    · rw [if_pos hx] at h
      obtain ⟨rfl, rfl⟩ := Prod.mk.injEq .. ▸ Option.some.inj h
      subst hx
      exact ⟨rfl, List.not_mem_nil _⟩
    · rw [if_neg hx] at h
      cases hs : splitFirst c xs with
      | none =>
        rw [hs] at h
        exact Option.noConfusion h
      | some pq =>
        obtain ⟨pre, post⟩ := pq
        rw [hs] at h
        obtain ⟨rfl, rfl⟩ := Prod.mk.injEq .. ▸ Option.some.inj h
        obtain ⟨hxs, hnotin⟩ := ih hs
        refine ⟨by rw [hxs]; rfl, ?_⟩
        intro hmem
        rcases List.mem_cons.mp hmem with he | hm
        · exact hx he.symm
        · exact hnotin hm

theorem splitFirst_eq_none {c : Char} {l : Str} (h : c ∉ l) :
    splitFirst c l = none := by
  induction l with
  | nil => rfl
  | cons x xs ih =>
    simp only [splitFirst]
    rw [if_neg fun hx => h (by rw [← hx]; exact List.mem_cons_self x xs),
      ih fun hm => h (List.mem_cons_of_mem x hm)]

theorem countChar_append (c : Char) (a b : Str) :
    countChar c (a ++ b) = countChar c a + countChar c b := by
  simp [countChar, List.filter_append]

theorem countChar_eq_zero {c : Char} {l : Str} (h : countChar c l = 0) :
    c ∉ l := by
  intro hmem
  have : c ∈ l.filter fun x => x = c := List.mem_filter.mpr ⟨hmem, by simp⟩
  rw [List.eq_nil_of_length_eq_zero h] at this
  exact List.not_mem_nil c this

/-- C9: an input with exactly one `':'` parses with the whole string (colon
included) as the name and no version info; and for every input, the old and
new version fields are either both present or both absent. -/
theorem c9_trigger_input_parse (s : Str) :
    (countChar ':' s = 1 → TriggerInput.parse s = ⟨s, none, none⟩) ∧
    ((TriggerInput.parse s).oldVersion.isSome ↔
      (TriggerInput.parse s).newVersion.isSome) := by
  constructor
  · intro hcount
    unfold TriggerInput.parse
    cases h1 : splitFirst ':' s with
    | none => rfl
    | some nr =>
      obtain ⟨name, rest⟩ := nr
      obtain ⟨hs, -⟩ := splitFirst_spec h1
      have hrest : ':' ∉ rest := by
        rw [hs, countChar_append] at hcount
        have hcons : countChar ':' (':' :: rest) =
            countChar ':' rest + 1 := by
          simp [countChar, List.filter_cons]
        rw [hcons] at hcount
        exact countChar_eq_zero (by omega)
      simp [splitFirst_eq_none hrest]
  · unfold TriggerInput.parse
    cases h1 : splitFirst ':' s with
    | none => simp
    | some nr =>
      obtain ⟨name, rest⟩ := nr
      cases h2 : splitFirst ':' rest with
      | none => simp [h2]
      | some ov => simp [h2]

/-- C9 witness: `"name:1.2.3"` (one colon) keeps the colon in the name with
no version info, via the theorem; a two-colon input yields both versions. -/
theorem c9_trigger_input_parse_witness :
    TriggerInput.parse "name:1.2.3".data =
      ⟨"name:1.2.3".data, none, none⟩ ∧
    TriggerInput.parse "qt6-base:6.6.0-1:6.7.0-1".data =
      ⟨"qt6-base".data, some "6.6.0-1".data, some "6.7.0-1".data⟩ :=
  ⟨(c9_trigger_input_parse "name:1.2.3".data).1 (by decide), by decide⟩

/-! ## Claim C10: oversized digit runs are silently dropped -/

theorem isDigit_not_delim {c : Char} (h : c.isDigit = true) :
    isDelim c = false := by
  by_cases h1 : c = '.'
  · subst h1
    exact absurd h (by decide)
  · by_cases h2 : c = '_'
    · subst h2
      exact absurd h (by decide)
    · by_cases h3 : c = '-'
      · subst h3
        exact absurd h (by decide)
      · simp [isDelim, h1, h2, h3]

theorem isDigit_ne {c d : Char} (h : c.isDigit = true)
    (hd : d.isDigit = false) : c ≠ d := by
  intro he
  rw [he, hd] at h
  exact Bool.noConfusion h

theorem splitBy_no_delim {d : Char → Bool} : ∀ {l : Str},
    (∀ x ∈ l, d x = false) → splitBy d l = [l] := by
  intro l
  induction l with
  | nil => intro _; rfl
  | cons x xs ih =>
    intro h
    simp only [splitBy]
    rw [ih fun y hy => h y (List.mem_cons_of_mem x hy)]
    simp [h x (List.mem_cons_self x xs)]

theorem segPart_all_digits : ∀ (s num : Str),
    (∀ c ∈ s, c.isDigit = true) → segPart s num [] = numFlush (num ++ s)
  | [], num, _ => by simp [segPart, alphaFlush]
  | c :: rest, num, h => by
    simp only [segPart, h c (List.mem_cons_self c rest), if_pos, alphaFlush,
      if_pos rfl, List.nil_append]
    rw [segPart_all_digits rest (num ++ [c])
      fun y hy => h y (List.mem_cons_of_mem c hy)]
    rw [List.append_assoc]
    rfl

/-- C10: a run of consecutive digits whose value does not fit in an unsigned
64-bit integer is silently dropped during segment parsing: a version string
that is a single such run parses to `none` (no segments remain), while
`"1.99999999999999999999999"` parses successfully with the oversized
component missing and therefore compares `Equal` to `"1"`. -/
theorem c10_overflow_dropped :
    (∀ s : Str, s ≠ [] → (∀ c ∈ s, c.isDigit = true) →
      2 ^ 64 ≤ digitsToNat s → Version.parse s = none) ∧
    Version.parseStr "1.99999999999999999999999" =
      some ⟨0, [.num 1], none⟩ ∧
    Version.parseStr "1" = some ⟨0, [.num 1], none⟩ ∧
    Version.cmpTo ⟨0, [.num 1], none⟩ ⟨0, [.num 1], none⟩ = .eq := by
  refine ⟨?_, by decide, by decide, by decide⟩
  intro s hne hdig hbig
  have hcolon : splitFirst ':' s = none :=
    splitFirst_eq_none fun hmem => by
      exact isDigit_ne (hdig ':' hmem) (by decide) rfl
  have hdash : splitFirst '-' s.reverse = none :=
    splitFirst_eq_none fun hmem => by
      exact isDigit_ne (hdig '-' (List.mem_reverse.mp hmem)) (by decide) rfl
  have hsegs : parseSegments s = [] := by
    unfold parseSegments
    rw [splitBy_no_delim fun x hx => isDigit_not_delim (hdig x hx)]
    rw [List.flatMap_cons, List.flatMap_nil, List.append_nil]
    rw [segPart_all_digits s [] hdig]
    simp only [List.nil_append, numFlush, if_neg hne]
    rw [if_neg (by omega)]
  unfold Version.parse
  rw [if_neg hne, hcolon]
  simp only [splitLast, hdash, hsegs]
  rfl

/-- C10 witness: a single 25-digit run (value far above `2^64`) parses to
`none`, via the theorem with every hypothesis checked concretely. -/
theorem c10_overflow_dropped_witness :
    Version.parse "1111111111111111111111111".data = none :=
  c10_overflow_dropped.1 "1111111111111111111111111".data (by decide)
    (by decide) (by decide)

end Anneal
